import Mathlib

set_option maxHeartbeats 1000000

/-!
Verification development for the token-stream analyzer layer of the
repository (iresearch analysis components).

Part 1 models `delimited_token_stream.cpp`: byte strings are `List Nat`,
the `uint32_t` offset fields are `Nat` reduced modulo `2 ^ 32` exactly
where the C++ performs 32-bit arithmetic, `size_t` quantities are plain
`Nat`.  A null `bytes_ref` is `none`, a non-null (possibly empty) one is
`some l`.
-/

/-!
Part 2 models `text_token_stream.cpp` (the linguistic analyzer): the
option record, stopword resolution, the per-term transform pipeline, the
JSON config codec (at the level of the structured value, since the JSON
text parser itself is an external component) and the process-wide cache
of compiled options.  Strings are byte lists; the ICU and snowball
resources built per instance (normalizer, case mapping, transliterator,
stemmer) are oracles, i.e. function parameters of the model.
-/

/-- Numeric value of the double-quote byte tested throughout the scanner. -/
def quoteByte : Nat := 34

/-- One plus the largest `uint32_t` value: the modulus of 32-bit arithmetic. -/
def u32Mod : Nat := 2 ^ 32

/-- Size of the delimiter: a null delimiter (`bytes_ref::NIL`) has size 0. -/
def dlenOf : Option (List Nat) → Nat
  | none => 0
  | some dl => dl.length

/-- Loop body of `find_delimiter`: scans the suffix `s` of the data for the
delimiter `dl`, honoring quoting.  Returns the index of the match relative
to `s`, or the length of `s` when no match is found (including the early
break when fewer than `dl.length` bytes remain unscanned).  `atStart`
records whether the position is index 0 of the whole data (the
`(i || delim.size())` test that keeps an empty delimiter from matching at
the very start), `quoted` the active-quote state. -/
def fdGo (dl : List Nat) : List Nat → Bool → Bool → Nat
  | [], _, _ => 0
  | x :: rest, atStart, quoted =>
    if quoted then
      if x = quoteByte then 1 + fdGo dl rest false false
      else 1 + fdGo dl rest false true
    else if (x :: rest).length < dl.length then (x :: rest).length
    else if dl.isPrefixOf (x :: rest) = true ∧ (atStart = false ∨ dl ≠ []) then 0
    else if x = quoteByte then 1 + fdGo dl rest false true
    else 1 + fdGo dl rest false false

/-- `find_delimiter(data, delim)`: a null delimiter returns `data.size()`,
otherwise the quote-aware scan runs from index 0. -/
def findDelim (delim : Option (List Nat)) (data : List Nat) : Nat :=
  match delim with
  | none => data.length
  | some dl => fdGo dl data true false

/-- Loop of `eval_term`, which starts at index `i = 1`.  The recursion walks
the suffix of the data beyond index `i`; `buf` is the accumulated output,
`cur` the bytes of `data[start..i)` (the pending slice appended to `buf`
at the next unescaped quote), `escaped` and `start` as in the C++.  The
result is the final `(buf, start)` pair, whether the loop ran out of data
or hit the mismatched-quote break. -/
def evalLoop : List Nat → List Nat → List Nat → Bool → Nat → Nat → List Nat × Nat
  | [], buf, _, _, start, _ => (buf, start)
  | c :: rest, buf, cur, escaped, start, i =>
    if c = quoteByte then
      if escaped ∧ start = i then evalLoop rest buf (cur ++ [c]) false start (i + 1)
      else if escaped then (buf, start)
      else evalLoop rest (buf ++ cur) [] true (i + 1) (i + 1)
    else evalLoop rest buf (cur ++ [c]) escaped start (i + 1)

/-- `eval_term(buf, data)`: unwraps a quoted token.  Data not starting with
a quote is returned verbatim; otherwise the quote-unwrapping loop runs and
its buffer is returned exactly when `start != 1 && start == data.size()`,
identity otherwise (mismatched or unterminated quotes). -/
def evalTerm (data : List Nat) : List Nat :=
  if data = [] then data
  else if data.headD 0 ≠ quoteByte then data
  else
    let r := evalLoop data.tail [] [] false 1 1
    if r.2 ≠ 1 ∧ r.2 = data.length then r.1 else data

/-- Token attributes produced by one successful `next()` of the delimited
analyzer: offsets (uint32 values), payload (the raw matched bytes) and the
term (after quote unwrapping). -/
structure DToken where
  offStart : Nat
  offEnd : Nat
  payload : List Nat
  term : List Nat
deriving DecidableEq

/-- Mutable state of `delimited_token_stream`: the unscanned suffix `data_`
(`none` once exhausted / NIL) and the `offset_` attribute fields. -/
structure DState where
  data : Option (List Nat)
  offStart : Nat
  offEnd : Nat
deriving DecidableEq

/-- `delimited_token_stream::reset(data)`: binds the full input, sets
`offset_.start = 0` and `offset_.end = 0 - uint32_t(delim_.size())` in
wrapping 32-bit arithmetic, and returns `true`. -/
def dreset (delim : Option (List Nat)) (input : List Nat) : DState × Bool :=
  (⟨some input, 0, (u32Mod - dlenOf delim % u32Mod) % u32Mod⟩, true)

/-- Term value of an emitted token: identity for a null delimiter,
quote unwrapping (`eval_term`) otherwise. -/
def dtermOf (delim : Option (List Nat)) (pay : List Nat) : List Nat :=
  match delim with
  | none => pay
  | some _ => evalTerm pay

/-- `delimited_token_stream::next()`: returns `none` for a null `data_` or
when the newly computed end offset no longer fits in 32 bits, otherwise the
emitted token and the successor state.  `start` is computed in wrapping
32-bit arithmetic (`offset_.end + uint32_t(delim_.size())`), `end` in
`size_t` arithmetic, mirroring the C++ exactly. -/
def dnext (delim : Option (List Nat)) (s : DState) : Option (DToken × DState) :=
  match s.data with
  | none => none
  | some l =>
    let size := findDelim delim l
    let nxt := max 1 (size + dlenOf delim)
    let start := (s.offEnd + dlenOf delim % u32Mod) % u32Mod
    let endv := start + size
    if u32Mod - 1 < endv then none
    else
      some (⟨start, endv, l.take size, dtermOf delim (l.take size)⟩,
            ⟨if l.length ≤ size then none else some (l.drop nxt), start, endv⟩)

/-- Tokens emitted by up to `fuel` successive `next()` calls. -/
def dtokens (delim : Option (List Nat)) : Nat → DState → List DToken
  | 0, _ => []
  | k + 1, s =>
    match dnext delim s with
    | none => []
    | some (t, s') => t :: dtokens delim k s'

/-- State after up to `fuel` successive `next()` calls (a failing call
leaves the state unchanged). -/
def dsteps (delim : Option (List Nat)) : Nat → DState → DState
  | 0, s => s
  | k + 1, s =>
    match dnext delim s with
    | none => s
    | some (_, s') => dsteps delim k s'

/-- Join a list of byte strings with the separator `sep` between
consecutive elements. -/
def joinSep (sep : List Nat) : List (List Nat) → List Nat
  | [] => []
  | [t] => t
  | t :: ts => t ++ sep ++ joinSep sep ts

/-- Termination measure of the delimited stream: 0 once `data_` is null,
otherwise one more than the remaining length. -/
def dmeasure (s : DState) : Nat :=
  match s.data with
  | none => 0
  | some l => l.length + 1

/-- Positional invariant tying a state of the delimited stream back to the
original input: the bound data is the suffix of `input` at position `p`,
and `offset_.end` is either the initial wrapped value (before the first
token) or the true end offset of the last emitted token, i.e. `p` minus
the delimiter length. -/
def dposInv (delim : Option (List Nat)) (input : List Nat) (s : DState) : Prop :=
  ∀ l, s.data = some l → ∃ p, p + l.length = input.length ∧ l = input.drop p ∧
    ((p = 0 ∧ s.offEnd = (u32Mod - dlenOf delim % u32Mod) % u32Mod) ∨
     (dlenOf delim ≤ p ∧ s.offEnd + dlenOf delim = p))

/-- States of the delimited stream reachable from a `reset(input)` by
successful `next()` calls. -/
inductive DReach (delim : Option (List Nat)) (input : List Nat) : DState → Prop
  | init : DReach delim input (dreset delim input).1
  | step {s t s'} : DReach delim input s → dnext delim s = some (t, s') →
      DReach delim input s'

/-- Delimiter of the C3 counterexample: `2 ^ 32 + 1` copies of the byte
`a`, whose length truncates to 1 in `uint32_t`. -/
def c3Delim : List Nat := List.replicate (u32Mod + 1) 97

/-- Input of the C3 counterexample: the delimiter followed by one byte
`b`, so the second token truly starts at byte offset `2 ^ 32 + 1`. -/
def c3Input : List Nat := c3Delim ++ [98]

/-- Input of the C5 counterexample: `2 ^ 32` copies of the byte `a`. -/
def c5Input : List Nat := List.replicate u32Mod 97

/-- The `case_convert_t` enumeration: `LOWER`, `NONE`, `UPPER`. -/
inductive CaseConvertT where
  | lower
  | cnone
  | upper
deriving DecidableEq

/-- `text_token_stream::options_t`. -/
structure TTOptions where
  locale : List Nat
  case_convert : CaseConvertT
  explicit_stopwords : List (List Nat)
  explicit_stopwords_set : Bool
  stopwordsPath : List Nat
  no_accent : Bool
  no_stem : Bool
deriving DecidableEq

/-- Modelled from the spec: default `options_t` values (the header that
declares them is not part of the inspected sources).  Spec sections 3
and 6 give caseConvert default `none`, `noAccent` and `noStem` default
false, stopwords unset (empty, with the explicit flag unset), and the
`stopwordsPath` "unset" sentinel distinguished by a leading NUL byte as
replicated by the condition `stopwordsPath.empty() || stopwordsPath[0] != 0`
in the code. -/
def defaultOptions : TTOptions where
  locale := []
  case_convert := .cnone
  explicit_stopwords := []
  explicit_stopwords_set := false
  stopwordsPath := [0]
  no_accent := false
  no_stem := false

/-- One `unordered_set` insertion on the iteration-ordered stopword set:
a new element goes to the back, a duplicate changes nothing. -/
def insertSW (acc : List (List Nat)) (x : List Nat) : List (List Nat) :=
  if x ∈ acc then acc else acc ++ [x]

/-- Range insertion `set.insert(first, last)`. -/
def insertAll (acc : List (List Nat)) (xs : List (List Nat)) : List (List Nat) :=
  xs.foldl insertSW acc

/-- The repeated source condition
`options.stopwordsPath.empty() || options.stopwordsPath[0] != 0`:
true for a really supplied path (empty string meaning the current
directory), false for the leading-NUL "unset" sentinel. -/
def pathCond : List Nat → Bool
  | [] => true
  | x :: _ => decide (x ≠ 0)

/-- `build_stopwords(options, buf)`.  The filesystem walk of
`get_stopwords` is the oracle `gs`: it receives `some path` for a custom
path (the first branch) and `none` for the default-location load (the
second branch), and returns the words read or `none` on failure, which
the caller surfaces as overall failure.  The Bool of the result records
whether any filesystem load happened at all. -/
def build_stopwords (gs : Option (List Nat) → Option (List (List Nat)))
    (opts : TTOptions) (buf : List (List Nat)) : Option (List (List Nat) × Bool) :=
  let buf1 := if opts.explicit_stopwords = [] then buf
              else insertAll buf opts.explicit_stopwords
  if pathCond opts.stopwordsPath then
    match gs (some opts.stopwordsPath) with
    | some ws => some (insertAll buf1 ws, true)
    | none => none
  else if opts.explicit_stopwords_set = false ∧ opts.explicit_stopwords = [] then
    match gs none with
    | some ws => some (insertAll buf1 ws, true)
    | none => none
  else some (buf1, false)

/-- Per-instance linguistic resources of `text_token_stream::state_t`,
as oracles: the ICU normalizer (`none` models a normalization failure for
that input, upon which the raw value is used), locale case mapping,
the optional accent-stripping transliterator (present exactly when
`no_accent` was configured and the resource was built), UTF-8 conversion,
and the optional snowball stemmer whose per-call result may be null. -/
structure TTEnv where
  normalize : List Nat → Option (List Nat)
  toLowerF : List Nat → List Nat
  toUpperF : List Nat → List Nat
  translit : Option (List Nat → List Nat)
  toUTF8 : List Nat → List Nat
  stemmer : Option (List Nat → Option (List Nat))

/-- `process_term(term, state, data)`: normalize, case-convert,
transliterate, convert to UTF-8, drop stopwords, stem with fallback to
the unstemmed value.  Returns `none` when the token is discarded. -/
def process_term (env : TTEnv) (cc : CaseConvertT) (stopwords : List (List Nat))
    (data : List Nat) : Option (List Nat) :=
  let word := match env.normalize data with
    | some w => w
    | none => data
  let word2 := match cc with
    | .lower => env.toLowerF word
    | .upper => env.toUpperF word
    | .cnone => word
  let word3 := match env.translit with
    | some tr => tr word2
    | none => word2
  let word_utf8 := env.toUTF8 word3
  if word_utf8 ∈ stopwords then none
  else
    match env.stemmer with
    | some st =>
      match st word_utf8 with
      | some v => some v
      | none => some word_utf8
    | none => some word_utf8

/-- Specification-side transform: the spec's fixed order
normalize → case-convert → accent-strip → UTF-8, written as a single
composition, to be compared with the code's `process_term`. -/
def transform_spec (env : TTEnv) (cc : CaseConvertT) (data : List Nat) : List Nat :=
  env.toUTF8
    ((match env.translit with
      | some tr => tr
      | none => id)
     ((match cc with
       | .lower => env.toLowerF
       | .upper => env.toUpperF
       | .cnone => id)
      (match env.normalize data with
       | some w => w
       | none => data)))

/-- Specification-side per-term outcome: stop the fully transformed
string, else stem it when a stemmer is available, falling back to the
transformed (never the raw) value when stemming fails. -/
def process_term_spec (env : TTEnv) (cc : CaseConvertT) (stopwords : List (List Nat))
    (data : List Nat) : Option (List Nat) :=
  if transform_spec env cc data ∈ stopwords then none
  else some ((match env.stemmer with
    | some st => st (transform_spec env cc data)
    | none => none).getD (transform_spec env cc data))

/-- One boundary span of the ICU word-break iterator: its text and
whether its rule status is `UBRK_WORD_NONE` (non-word span). -/
structure TTSeg where
  text : List Nat
  wordNone : Bool

/-- `text_token_stream::next()`: walk the remaining boundary spans,
skipping non-word spans and spans whose `process_term` discards the
token, and emit the first produced term. -/
def tt_next (env : TTEnv) (cc : CaseConvertT) (stopwords : List (List Nat)) :
    List TTSeg → Option (List Nat × List TTSeg)
  | [] => none
  | seg :: rest =>
    if seg.wordNone then tt_next env cc stopwords rest
    else
      match process_term env cc stopwords seg.text with
      | some t => some (t, rest)
      | none => tt_next env cc stopwords rest

/-- Structured (JSON) values, as the opaque structured-value reader and
writer of the config codec exchange them: strings and keys are byte
lists, objects are ordered field lists. -/
inductive JVal where
  | jstr (s : List Nat)
  | jbool (b : Bool)
  | jarr (elems : List JVal)
  | jobj (fields : List (List Nat × JVal))

/-- Member lookup in a structured object (`HasMember` and `operator[]`). -/
def jlookup : List (List Nat × JVal) → List Nat → Option JVal
  | [], _ => none
  | (k', v) :: rest, k => if k' = k then some v else jlookup rest k

/-- Hexadecimal digit bytes for the writer's control-character escapes. -/
def hexDigit (n : Nat) : Nat :=
  if n < 10 then 48 + n else 55 + n

/-- Escape of one byte in a JSON string literal: quote and backslash are
backslash-escaped, control bytes become `\u00XX`, the rest pass through. -/
def escapeByte (c : Nat) : List Nat :=
  if c = 34 then [92, 34]
  else if c = 92 then [92, 92]
  else if c < 32 then [92, 117, 48, 48, hexDigit (c / 16), hexDigit (c % 16)]
  else [c]

/-- Escape of a whole string body. -/
def escapeStr (s : List Nat) : List Nat :=
  s.foldr (fun c acc => escapeByte c ++ acc) []

mutual

/-- Compact serialization of a structured value to bytes, as the
rapidjson writer emits it. -/
def writeJson : JVal → List Nat
  | .jstr s => 34 :: escapeStr s ++ [34]
  | .jbool b => if b then [116, 114, 117, 101] else [102, 97, 108, 115, 101]
  | .jarr es => 91 :: writeArr es ++ [93]
  | .jobj fs => 123 :: writeObj fs ++ [125]

/-- Comma-separated array elements. -/
def writeArr : List JVal → List Nat
  | [] => []
  | [e] => writeJson e
  | e :: es => writeJson e ++ 44 :: writeArr es

/-- Comma-separated `"key":value` fields. -/
def writeObj : List (List Nat × JVal) → List Nat
  | [] => []
  | [(k, v)] => writeJson (.jstr k) ++ 58 :: writeJson v
  | (k, v) :: fs => writeJson (.jstr k) ++ 58 :: writeJson v ++ 44 :: writeObj fs

end

/-- The byte string `locale`. -/
def localeKey : List Nat := [108, 111, 99, 97, 108, 101]

/-- The byte string `caseConvert`. -/
def caseConvertKey : List Nat := [99, 97, 115, 101, 67, 111, 110, 118, 101, 114, 116]

/-- The byte string `stopwords`. -/
def stopwordsKey : List Nat := [115, 116, 111, 112, 119, 111, 114, 100, 115]

/-- The byte string `stopwordsPath`. -/
def stopwordsPathKey : List Nat :=
  [115, 116, 111, 112, 119, 111, 114, 100, 115, 80, 97, 116, 104]

/-- The byte string `noAccent`. -/
def noAccentKey : List Nat := [110, 111, 65, 99, 99, 101, 110, 116]

/-- The byte string `noStem`. -/
def noStemKey : List Nat := [110, 111, 83, 116, 101, 109]

/-- Name of a case-convert value in `case_convert_map` (the map holds
three entries with distinct values, so the reverse `find_if` of
`make_json_config` resolves to exactly this name). -/
def ccName : CaseConvertT → List Nat
  | .lower => [108, 111, 119, 101, 114]
  | .cnone => [110, 111, 110, 101]
  | .upper => [117, 112, 112, 101, 114]

/-- Forward lookup in `case_convert_map`. -/
def ccOfName (s : List Nat) : Option CaseConvertT :=
  if s = [108, 111, 119, 101, 114] then some .lower
  else if s = [110, 111, 110, 101] then some .cnone
  else if s = [117, 112, 112, 101, 114] then some .upper
  else none

/-- `make_json_config(options)`, producing the structured value whose
serialization is the definition string: `locale` and `caseConvert`
always, `stopwords` exactly when non-empty or explicitly set, then
`noAccent`, `noStem`, and `stopwordsPath` exactly when it is not the
unset sentinel. -/
def make_json_config_ast (o : TTOptions) : JVal :=
  .jobj
    ([(localeKey, .jstr o.locale), (caseConvertKey, .jstr (ccName o.case_convert))]
     ++ (if o.explicit_stopwords ≠ [] ∨ o.explicit_stopwords_set = true then
           [(stopwordsKey, .jarr (o.explicit_stopwords.map JVal.jstr))]
         else [])
     ++ [(noAccentKey, .jbool o.no_accent), (noStemKey, .jbool o.no_stem)]
     ++ (if pathCond o.stopwordsPath then
           [(stopwordsPathKey, .jstr o.stopwordsPath)]
         else []))

/-- String content of a structured value, when it is a string. -/
def asStr : JVal → Option (List Nat)
  | .jstr s => some s
  | _ => none

/-- Boolean content of a structured value, when it is a boolean. -/
def asBool : JVal → Option Bool
  | .jbool b => some b
  | _ => none

/-- All-strings content of an array value (`IsString` checked per
element, with failure on the first non-string). -/
def strList : List JVal → Option (List (List Nat))
  | [] => some []
  | v :: rest => do
    let s ← asStr v
    let r ← strList rest
    some (s :: r)

/-- Option extraction of the object branch of `make_json`: the required
`locale` string, the optional `caseConvert` enum name, the optional
`stopwords` string array (whose presence, even empty, sets the explicit
flag, and whose elements are inserted into the option set in order), the
optional `stopwordsPath` string, and the optional `noAccent`/`noStem`
booleans; `none` on any malformed field.  A bare string argument is the
`construct(args)` path: a default option record carrying the raw
argument text (the serialization of that string value) as its locale. -/
def make_json_opts : JVal → Option TTOptions
  | .jstr s => some { defaultOptions with locale := writeJson (.jstr s) }
  | .jobj fields => do
    let locV ← jlookup fields localeKey
    let loc ← asStr locV
    let cc ← match jlookup fields caseConvertKey with
      | none => some defaultOptions.case_convert
      | some v => do
        let s ← asStr v
        ccOfName s
    let swTriple ← match jlookup fields stopwordsKey with
      | none =>
        match jlookup fields stopwordsPathKey with
        | none => some (([] : List (List Nat)), false, defaultOptions.stopwordsPath)
        | some pv => do
          let p ← asStr pv
          some (([] : List (List Nat)), false, p)
      | some v =>
        match v with
        | .jarr es => do
          let arr ← strList es
          let sw := insertAll [] arr
          match jlookup fields stopwordsPathKey with
          | none => some (sw, true, defaultOptions.stopwordsPath)
          | some pv => do
            let p ← asStr pv
            some (sw, true, p)
        | _ => none
    let na ← match jlookup fields noAccentKey with
      | none => some defaultOptions.no_accent
      | some v => asBool v
    let ns ← match jlookup fields noStemKey with
      | none => some defaultOptions.no_stem
      | some v => asBool v
    some { locale := loc, case_convert := cc, explicit_stopwords := swTriple.1,
           explicit_stopwords_set := swTriple.2.1, stopwordsPath := swTriple.2.2,
           no_accent := na, no_stem := ns }
  | _ => none

/-- One entry of `cached_state_by_key`: the owned key string (`key_`),
the parsed options and the resolved stopword set. -/
structure CacheEntry where
  key : List Nat
  opts : TTOptions
  stopwords : List (List Nat)
deriving DecidableEq

/-- The process-wide cache, keyed by the verbatim configuration string. -/
abbrev TTCache : Type := List (List Nat × CacheEntry)

/-- Map lookup (`cached_state_by_key.find`). -/
def lookupC : TTCache → List Nat → Option CacheEntry
  | [], _ => none
  | (k', e) :: rest, k => if k' = k then some e else lookupC rest k

/-- `construct(cache_key, options, stopwords)` under the cache lock:
`try_emplace_update_key` inserts a fresh entry only when the key is
absent, otherwise the existing entry is returned untouched; the analyzer
then shares the entry either way. -/
def construct1 (c : TTCache) (k : List Nat) (o : TTOptions)
    (sw : List (List Nat)) : CacheEntry × TTCache :=
  match lookupC c k with
  | some e => (e, c)
  | none => (⟨k, o, sw⟩, c ++ [(k, ⟨k, o, sw⟩)])

/-- `construct(cache_key)`: cache hit returns the shared entry, a miss
interprets the key as a locale, resolves stopwords (failure aborts with
no cache change) and defers to the inserting `construct`. -/
def construct2 (gs : Option (List Nat) → Option (List (List Nat)))
    (c : TTCache) (k : List Nat) : Option (CacheEntry × TTCache) :=
  match lookupC c k with
  | some e => some (e, c)
  | none =>
    match build_stopwords gs { defaultOptions with locale := k } [] with
    | none => none
    | some (sw, _) => some (construct1 c k { defaultOptions with locale := k } sw)

/-- The cache operations a process can perform: a build with parsed
options and stopwords in hand, or a by-key build. -/
inductive CacheOp where
  | withOpts (k : List Nat) (o : TTOptions) (sw : List (List Nat))
  | byKey (gs : Option (List Nat) → Option (List (List Nat))) (k : List Nat)

/-- Effect of one operation on the cache. -/
def runOp (c : TTCache) : CacheOp → TTCache
  | .withOpts k o sw => (construct1 c k o sw).2
  | .byKey gs k =>
    match construct2 gs c k with
    | none => c
    | some (_, c') => c'

/-- Effect of a whole operation sequence. -/
def runOps (c : TTCache) (ops : List CacheOp) : TTCache :=
  ops.foldl runOp c

/-- A fully transparent resource environment for concrete runs: identity
normalization, case mapping and UTF-8 conversion, no transliterator, no
stemmer. -/
def idEnv : TTEnv where
  normalize := fun d => some d
  toLowerF := id
  toUpperF := id
  translit := none
  toUTF8 := id
  stemmer := none

/-- The options reconstructed from a serialized configuration: identical
to the original except that the explicit-stopwords flag is forced
whenever the stopwords member was written, and a sentinel (unwritten)
path is re-normalized to the default sentinel. -/
def reparsedOptions (o : TTOptions) : TTOptions where
  locale := o.locale
  case_convert := o.case_convert
  explicit_stopwords := o.explicit_stopwords
  explicit_stopwords_set :=
    decide (o.explicit_stopwords ≠ [] ∨ o.explicit_stopwords_set = true)
  stopwordsPath := if pathCond o.stopwordsPath then o.stopwordsPath else [0]
  no_accent := o.no_accent
  no_stem := o.no_stem

lemma fdGo_le (dl : List Nat) : ∀ (s : List Nat) (aS q : Bool), fdGo dl s aS q ≤ s.length
  | [], _, _ => by simp [fdGo]
  | x :: rest, aS, q => by
    have h1 := fdGo_le dl rest false false
    have h2 := fdGo_le dl rest false true
    simp only [fdGo, List.length_cons]
    split_ifs <;> omega

lemma findDelim_le (delim : Option (List Nat)) (l : List Nat) :
    findDelim delim l ≤ l.length := by
  cases delim with
  | none => simp [findDelim]
  | some dl => exact fdGo_le dl l true false

lemma fdGo_match (dl : List Nat) : ∀ (s : List Nat) (aS q : Bool),
    fdGo dl s aS q < s.length →
    dl.isPrefixOf (s.drop (fdGo dl s aS q)) = true ∧
    dl.length + fdGo dl s aS q ≤ s.length ∧
    (aS = true → dl = [] → 1 ≤ fdGo dl s aS q)
  | [], _, _ => by simp [fdGo]
  | x :: rest, aS, q => by
    intro hlt
    have h1 := fdGo_match dl rest false false
    have h2 := fdGo_match dl rest false true
    simp only [fdGo, List.length_cons] at hlt ⊢
    split_ifs at hlt ⊢ with hq hx hbrk hm hx2
    · -- quoted, x is a quote
      have := h1 (by omega)
      refine ⟨?_, by omega, fun _ _ => by omega⟩
      simpa [Nat.add_comm, List.drop_succ_cons] using this.1
    · -- quoted, x not a quote
      have := h2 (by omega)
      refine ⟨?_, by omega, fun _ _ => by omega⟩
      simpa [Nat.add_comm, List.drop_succ_cons] using this.1
    · -- break: result is the full length, contradiction with hlt
      omega
    · -- match at index 0
      refine ⟨by simpa using hm.1, by simpa using hbrk, ?_⟩
      intro haS hdl
      rcases hm.2 with h | h
      · rw [haS] at h; cases h
      · exact absurd hdl h
    · -- not a match, x is a quote
      have := h2 (by omega)
      refine ⟨?_, by omega, fun _ _ => by omega⟩
      simpa [Nat.add_comm, List.drop_succ_cons] using this.1
    · -- not a match, ordinary byte
      have := h1 (by omega)
      refine ⟨?_, by omega, fun _ _ => by omega⟩
      simpa [Nat.add_comm, List.drop_succ_cons] using this.1

lemma u32Mod_eq : u32Mod = 4294967296 := by norm_num [u32Mod]

lemma u32_mod_trick (d : Nat) :
    ((u32Mod - d % u32Mod) % u32Mod + d % u32Mod) % u32Mod = 0 := by
  rw [u32Mod_eq]
  omega

/-- Inversion of a successful `next()`: the exact token and successor state
it produces, plus the fact that the 32-bit guard did not fire. -/
lemma dnext_some_inv {delim : Option (List Nat)} {s : DState} {t : DToken} {s' : DState}
    (h : dnext delim s = some (t, s')) :
    ∃ l, s.data = some l ∧
      t = ⟨(s.offEnd + dlenOf delim % u32Mod) % u32Mod,
           (s.offEnd + dlenOf delim % u32Mod) % u32Mod + findDelim delim l,
           l.take (findDelim delim l),
           dtermOf delim (l.take (findDelim delim l))⟩ ∧
      s' = ⟨if l.length ≤ findDelim delim l then none
            else some (l.drop (max 1 (findDelim delim l + dlenOf delim))),
            (s.offEnd + dlenOf delim % u32Mod) % u32Mod,
            (s.offEnd + dlenOf delim % u32Mod) % u32Mod + findDelim delim l⟩ ∧
      ¬ (u32Mod - 1 < (s.offEnd + dlenOf delim % u32Mod) % u32Mod + findDelim delim l) := by
  cases hd : s.data with
  | none => simp [dnext, hd] at h
  | some l =>
    simp only [dnext, hd] at h
    by_cases hg : u32Mod - 1 < (s.offEnd + dlenOf delim % u32Mod) % u32Mod + findDelim delim l
    · rw [if_pos hg] at h; cases h
    · rw [if_neg hg] at h
      injection h with h'
      injection h' with h1 h2
      exact ⟨l, rfl, h1.symm, h2.symm, hg⟩

/-- A successful `next()` strictly decreases the termination measure. -/
lemma dnext_measure_lt {delim : Option (List Nat)} {s : DState} {t : DToken} {s' : DState}
    (h : dnext delim s = some (t, s')) : dmeasure s' < dmeasure s := by
  obtain ⟨l, hd, _, hs, _⟩ := dnext_some_inv h
  subst hs
  by_cases hc : l.length ≤ findDelim delim l
  · simp [dmeasure, hd, hc]
  · simp only [dmeasure, hd, if_neg hc, List.length_drop]
    omega

/-- A successful `next()` that leaves data bound advances the unscanned
suffix by exactly `max 1 (match + delimiter length)` bytes — in particular
by at least one byte. -/
lemma dnext_advance {delim : Option (List Nat)} {s : DState} {t : DToken} {s' : DState}
    (h : dnext delim s = some (t, s')) :
    ∀ l l', s.data = some l → s'.data = some l' →
      l.length - l'.length = max 1 (findDelim delim l + dlenOf delim) ∧
      1 ≤ l.length - l'.length := by
  intro l l' hl hl'
  obtain ⟨l₀, hd, _, hs, _⟩ := dnext_some_inv h
  rw [hl] at hd
  obtain rfl : l = l₀ := Option.some.inj hd
  subst hs
  simp only at hl'
  by_cases hc : l.length ≤ findDelim delim l
  · rw [if_pos hc] at hl'; cases hl'
  · rw [if_neg hc] at hl'
    obtain rfl : l' = l.drop (max 1 (findDelim delim l + dlenOf delim)) :=
      (Option.some.inj hl').symm
    have hnle : max 1 (findDelim delim l + dlenOf delim) ≤ l.length := by
      cases delim with
      | none => simp [findDelim] at hc
      | some dl =>
        have hm := fdGo_match dl l true false (by
          simpa [findDelim] using Nat.lt_of_not_le hc)
        rcases eq_or_ne dl [] with rfl | hne
        · have := hm.2.2 rfl rfl
          simp only [findDelim] at hc ⊢
          simp only [dlenOf, List.length_nil]
          omega
        · have := hm.2.1
          have hdlpos : 1 ≤ dl.length := List.length_pos.mpr hne
          simp only [findDelim] at hc ⊢
          simp only [dlenOf]
          omega
    simp only [List.length_drop]
    omega

/-- After `dmeasure s` many calls the stream is exhausted: `next()` fails. -/
lemma dsteps_term (delim : Option (List Nat)) :
    ∀ (k : Nat) (s : DState), dmeasure s ≤ k → dnext delim (dsteps delim k s) = none
  | 0, s, h => by
    cases hd : s.data with
    | none => simp [dsteps, dnext, hd]
    | some l => simp [dmeasure, hd] at h
  | k + 1, s, h => by
    cases heq : dnext delim s with
    | none => simp [dsteps, heq]
    | some ts =>
      obtain ⟨t, s'⟩ := ts
      have hlt := dnext_measure_lt heq
      have hrec := dsteps_term delim k s' (by omega)
      simpa [dsteps, heq] using hrec

/-- The reset state satisfies the positional invariant. -/
lemma dreset_inv (delim : Option (List Nat)) (input : List Nat) :
    dposInv delim input (dreset delim input).1 := by
  intro l hl
  obtain rfl : input = l := Option.some.inj hl
  exact ⟨0, by simp, by simp, Or.inl ⟨rfl, rfl⟩⟩

/-- Characterization of a `next()` call from an invariant state of an input
shorter than `2 ^ 32` bytes: the call succeeds, the emitted offsets are the
true byte offsets of the matched slice inside the original input, and the
invariant is preserved. -/
lemma dnext_char {delim : Option (List Nat)} {input : List Nat} {s : DState} {l : List Nat}
    (hlen : input.length < u32Mod) (hinv : dposInv delim input s) (hl : s.data = some l) :
    ∃ t s', dnext delim s = some (t, s') ∧
      t.offStart = input.length - l.length ∧
      t.offEnd = input.length - l.length + findDelim delim l ∧
      t.payload = l.take (findDelim delim l) ∧
      t.term = dtermOf delim (l.take (findDelim delim l)) ∧
      s'.data = (if l.length ≤ findDelim delim l then none
                 else some (l.drop (max 1 (findDelim delim l + dlenOf delim)))) ∧
      s'.offEnd = input.length - l.length + findDelim delim l ∧
      dposInv delim input s' := by
  obtain ⟨p, hp, hsuf, hdisj⟩ := hinv l hl
  have hpv : p = input.length - l.length := by omega
  have hsize := findDelim_le delim l
  have hstart : (s.offEnd + dlenOf delim % u32Mod) % u32Mod = p := by
    rcases hdisj with ⟨h0, he⟩ | ⟨hd, he⟩
    · rw [he, u32_mod_trick, h0]
    · have hdlt : dlenOf delim < u32Mod := by omega
      rw [Nat.mod_eq_of_lt hdlt, he, Nat.mod_eq_of_lt (by omega)]
  have hguard : ¬ (u32Mod - 1 < (s.offEnd + dlenOf delim % u32Mod) % u32Mod + findDelim delim l) := by
    rw [hstart]; omega
  have heq : dnext delim s =
      some (⟨p, p + findDelim delim l, l.take (findDelim delim l),
             dtermOf delim (l.take (findDelim delim l))⟩,
            ⟨if l.length ≤ findDelim delim l then none
             else some (l.drop (max 1 (findDelim delim l + dlenOf delim))),
             p, p + findDelim delim l⟩) := by
    simp only [dnext, hl]
    rw [if_neg hguard, hstart]
  refine ⟨_, _, heq, by simp [hpv], by simp [hpv], by simp, by simp, by simp, by simp [hpv], ?_⟩
  intro l' hl'
  simp only at hl'
  by_cases hc : l.length ≤ findDelim delim l
  · rw [if_pos hc] at hl'; cases hl'
  · rw [if_neg hc] at hl'
    obtain rfl : l' = l.drop (max 1 (findDelim delim l + dlenOf delim)) :=
      (Option.some.inj hl').symm
    cases delim with
    | none => simp [findDelim] at hc
    | some dl =>
      have hm := fdGo_match dl l true false (by
        simpa [findDelim] using Nat.lt_of_not_le hc)
      have hmax : max 1 (findDelim (some dl) l + dlenOf (some dl)) =
          findDelim (some dl) l + dl.length := by
        rcases eq_or_ne dl [] with rfl | hne
        · have := hm.2.2 rfl rfl
          simp only [findDelim] at this ⊢
          simp only [dlenOf, List.length_nil]
          omega
        · have hdlpos : 1 ≤ dl.length := List.length_pos.mpr hne
          simp only [findDelim, dlenOf] at hm ⊢
          omega
      have hnle : findDelim (some dl) l + dl.length ≤ l.length := by
        rcases eq_or_ne dl [] with rfl | hne
        · simp only [List.length_nil]
          omega
        · have := hm.2.1
          simp only [findDelim] at this ⊢
          omega
      refine ⟨p + (findDelim (some dl) l + dl.length), ?_, ?_, Or.inr ⟨?_, ?_⟩⟩
      · rw [hmax, List.length_drop]
        omega
      · rw [hmax, hsuf, List.drop_drop]
      · simp only [dlenOf]
        omega
      · simp only [dlenOf]
        omega

/-- Every reachable state of the delimited stream satisfies the positional
invariant (for inputs shorter than `2 ^ 32` bytes). -/
lemma dreach_inv {delim : Option (List Nat)} {input : List Nat} {s : DState}
    (hlen : input.length < u32Mod) (h : DReach delim input s) :
    dposInv delim input s := by
  induction h with
  | init => exact dreset_inv delim input
  | @step s₀ t s' hr hstep ih =>
    cases hd : s₀.data with
    | none => simp [dnext, hd] at hstep
    | some l =>
      obtain ⟨t', s'', heq, _, _, _, _, _, _, hinv'⟩ := dnext_char hlen ih hd
      rw [hstep] at heq
      injection heq with heq'
      injection heq' with h1 h2
      rw [h2]
      exact hinv'

/-- Claim C2: for every input and every configured delimiter (any length,
including empty or null), the state set by `reset` carries the wrapped
32-bit value `0 - uint32_t(delimiter.length())` as its offset end, and the
first token produced by a successful `next()` has start offset exactly 0
(adding the delimiter length in 32-bit arithmetic wraps back to 0). -/
theorem c2_first_token_offset_zero
    (delim : Option (List Nat)) (input : List Nat) (t : DToken) (s' : DState)
    (h : dnext delim (dreset delim input).1 = some (t, s')) :
    (dreset delim input).1.offEnd = (u32Mod - dlenOf delim % u32Mod) % u32Mod ∧
    t.offStart = 0 := by
  refine ⟨rfl, ?_⟩
  obtain ⟨l, hd, ht, _, _⟩ := dnext_some_inv h
  rw [ht]
  exact u32_mod_trick (dlenOf delim)

/-- Claim C2 witness: concrete run with delimiter `","` and input `"ab"`. -/
theorem c2_witness :
    (⟨0, 2, [97, 98], [97, 98]⟩ : DToken).offStart = 0 :=
  (c2_first_token_offset_zero (some [44]) [97, 98] _ ⟨none, 0, 2⟩ (by decide)).2

/-- Claim C10: `delimited_token_stream::reset` returns `true` for every
input string and every configured delimiter — it can never fail. -/
theorem c10_reset_never_fails (delim : Option (List Nat)) (input : List Nat) :
    (dreset delim input).2 = true := rfl

/-- Claim C6: quote unwrapping of the delimited analyzer.  The matched
bytes `"a""b"` unwrap to the term `a"b` (a doubled quote inside a quoted
field is an escaped literal quote), and the unterminated-quote bytes
`"abc` are returned verbatim. -/
theorem c6_quote_unwrapping :
    evalTerm [34, 97, 34, 34, 98, 34] = [97, 34, 98] ∧
    evalTerm [34, 97, 98, 99] = [34, 97, 98, 99] := by decide

/-- Claim C9 (corrected): a counterexample to the claimed advance of at
least `1 + delimiter.length` bytes.  With delimiter `","` and input `",a"`
the first `next()` succeeds with a zero-length match and advances the
unscanned suffix by exactly 1 byte, which is less than
`1 + delimiter.length = 2`. -/
theorem c9_counterexample :
    dnext (some [44]) (dreset (some [44]) [44, 97]).1 =
      some (⟨0, 0, [], []⟩, ⟨some [97], 0, 0⟩) ∧
    [44, 97].length - [97].length < 1 + [44].length := by decide

/-- Claim C9 (amended): every successful `next()` advances the unscanned
suffix by exactly `max 1 (match length + delimiter length)` bytes — hence
by at least one byte — and consequently, after at most `dmeasure s` further
calls (bounded by the remaining input length plus one), `next()` returns
false. -/
theorem c9_advance_and_termination
    (delim : Option (List Nat)) (s : DState) (t : DToken) (s' : DState)
    (h : dnext delim s = some (t, s')) :
    dmeasure s' < dmeasure s ∧
    (∀ l l', s.data = some l → s'.data = some l' →
      l.length - l'.length = max 1 (findDelim delim l + dlenOf delim) ∧
      1 ≤ l.length - l'.length) ∧
    (∀ k, dmeasure s ≤ k → dnext delim (dsteps delim k s) = none) :=
  ⟨dnext_measure_lt h, dnext_advance h, fun k hk => dsteps_term delim k s hk⟩

/-- Claim C9 witness: concrete run with delimiter `","` and input `"a,b"`:
the measure decreases and the stream is exhausted after three calls. -/
theorem c9_witness :
    dmeasure ⟨some [98], 0, 1⟩ < dmeasure ⟨some [97, 44, 98], 0, 4294967295⟩ ∧
    dnext (some [44]) (dsteps (some [44]) 4 ⟨some [97, 44, 98], 0, 4294967295⟩) = none :=
  ⟨(c9_advance_and_termination (some [44]) _ ⟨0, 1, [97], [97]⟩ ⟨some [98], 0, 1⟩
      (by decide)).1,
   (c9_advance_and_termination (some [44]) _ ⟨0, 1, [97], [97]⟩ ⟨some [98], 0, 1⟩
      (by decide)).2.2 4 (by decide)⟩

/-- Claim C3 (amended): for inputs shorter than `2 ^ 32` bytes, every token
emitted by `next()` from a reachable state carries correct byte offsets
into the original input: the offsets fit in 32 bits, `offset_end` is
`offset_start` plus the payload length, stays within the input, and the
payload is exactly the slice of the original input at those offsets. -/
theorem c3_offsets_correct_below_u32
    (delim : Option (List Nat)) (input : List Nat) (s s' : DState) (t : DToken)
    (hlen : input.length < u32Mod) (hr : DReach delim input s)
    (h : dnext delim s = some (t, s')) :
    t.offStart + t.payload.length = t.offEnd ∧
    t.offEnd ≤ input.length ∧ t.offEnd < u32Mod ∧
    t.payload = (input.drop t.offStart).take t.payload.length := by
  have hinv := dreach_inv hlen hr
  cases hd : s.data with
  | none => simp [dnext, hd] at h
  | some l =>
    obtain ⟨p, hp, hsuf, _⟩ := hinv l hd
    obtain ⟨t', s'', heq, hos, hoe, hpay, _, _, _, _⟩ := dnext_char hlen hinv hd
    rw [h] at heq
    injection heq with heq'
    injection heq' with h1 h2
    subst h1
    have hpv : p = input.length - l.length := by omega
    have hsize : findDelim delim l ≤ l.length := findDelim_le delim l
    have hplen : t.payload.length = findDelim delim l := by
      rw [hpay, List.length_take]
      omega
    refine ⟨?_, ?_, ?_, ?_⟩
    · rw [hos, hoe, hplen]
    · rw [hoe]; omega
    · rw [hoe]; omega
    · rw [hplen, hos, ← hpv, ← hsuf]
      exact hpay

lemma u32Mod_pos : 0 < u32Mod := by rw [u32Mod_eq]; omega

/-- One unquoted step of the delimiter scan, as an explicit conditional. -/
lemma fdGo_cons_unquoted (dl : List Nat) (x : Nat) (rest : List Nat) (aS : Bool) :
    fdGo dl (x :: rest) aS false =
      (if (x :: rest).length < dl.length then (x :: rest).length
       else if dl.isPrefixOf (x :: rest) = true ∧ (aS = false ∨ dl ≠ []) then 0
       else if x = quoteByte then 1 + fdGo dl rest false true
       else 1 + fdGo dl rest false false) := by
  simp only [fdGo]
  rw [if_neg Bool.false_ne_true]

/-- The scan matches at index 0 when the delimiter is a prefix there. -/
lemma fdGo_cons_match0 (dl : List Nat) (x : Nat) (rest : List Nat) (aS : Bool)
    (hlen : ¬ ((x :: rest).length < dl.length))
    (hm : dl.isPrefixOf (x :: rest) = true ∧ (aS = false ∨ dl ≠ [])) :
    fdGo dl (x :: rest) aS false = 0 := by
  rw [fdGo_cons_unquoted, if_neg hlen, if_pos hm]

/-- The scan breaks immediately when fewer bytes than the delimiter remain. -/
lemma fdGo_cons_break (dl : List Nat) (x : Nat) (rest : List Nat) (aS : Bool)
    (hlen : (x :: rest).length < dl.length) :
    fdGo dl (x :: rest) aS false = (x :: rest).length := by
  rw [fdGo_cons_unquoted, if_pos hlen]

/-- Explicit formula for `next()` on a state with bound data. -/
lemma dnext_eq_formula {delim : Option (List Nat)} {s : DState} {l : List Nat}
    (hl : s.data = some l) :
    dnext delim s =
      if u32Mod - 1 < (s.offEnd + dlenOf delim % u32Mod) % u32Mod + findDelim delim l
      then none
      else some
        (⟨(s.offEnd + dlenOf delim % u32Mod) % u32Mod,
          (s.offEnd + dlenOf delim % u32Mod) % u32Mod + findDelim delim l,
          l.take (findDelim delim l), dtermOf delim (l.take (findDelim delim l))⟩,
         ⟨if l.length ≤ findDelim delim l then none
          else some (l.drop (max 1 (findDelim delim l + dlenOf delim))),
          (s.offEnd + dlenOf delim % u32Mod) % u32Mod,
          (s.offEnd + dlenOf delim % u32Mod) % u32Mod + findDelim delim l⟩) := by
  simp only [dnext, hl]

/-- Claim C3 (counterexample): on an input longer than `2 ^ 32` bytes the
first `next()` succeeds with an empty match, and the second `next()` also
succeeds — the 32-bit guard does not fire — yet its token reports offsets
`[1, 2)` although its payload `b` does not live at byte 1 of the original
input (byte 1 is an `a`; the payload truly lives at offset `2 ^ 32 + 1`):
a wrapped, corrupt offset is emitted instead of ending the stream. -/
theorem c3_counterexample :
    dnext (some c3Delim) (dreset (some c3Delim) c3Input).1 =
      some (⟨0, 0, [], []⟩, ⟨some [98], 0, 0⟩) ∧
    dnext (some c3Delim) ⟨some [98], 0, 0⟩ =
      some (⟨1, 2, [98], [98]⟩, ⟨none, 1, 2⟩) ∧
    (c3Input.drop 1).take 1 ≠ [98] := by
  have hdlen : dlenOf (some c3Delim) = u32Mod + 1 := by
    rw [dlenOf, c3Delim, List.length_replicate]
  have hclen : c3Input.length = u32Mod + 2 := by
    rw [c3Input, List.length_append, c3Delim, List.length_replicate]
    rw [List.length_singleton]
  have hcons : c3Input = 97 :: (List.replicate u32Mod 97 ++ [98]) := by
    rw [c3Input, c3Delim, List.replicate_succ, List.cons_append]
  have hpre : c3Delim.isPrefixOf c3Input = true := by
    rw [List.isPrefixOf_iff_prefix]
    exact List.prefix_append _ _
  have hne : c3Delim ≠ [] := by
    intro h
    have := congrArg List.length h
    rw [c3Delim, List.length_replicate, List.length_nil] at this
    omega
  have hfd1 : findDelim (some c3Delim) c3Input = 0 := by
    show fdGo c3Delim c3Input true false = 0
    conv_lhs => rw [hcons]
    refine fdGo_cons_match0 _ _ _ _ ?_ ⟨hcons ▸ hpre, Or.inr hne⟩
    rw [← hcons, hclen, c3Delim, List.length_replicate]
    omega
  have hdrop : c3Input.drop (u32Mod + 1) = [98] := by
    rw [c3Input, List.drop_left' (by rw [c3Delim, List.length_replicate])]
  refine ⟨?_, ?_, ?_⟩
  · -- first next(): empty token, suffix advances past the huge delimiter
    rw [dnext_eq_formula (l := c3Input) rfl, hfd1, hdlen]
    have hoe : (dreset (some c3Delim) c3Input).1.offEnd
        = (u32Mod - (u32Mod + 1) % u32Mod) % u32Mod := by
      rw [dreset, hdlen]
    rw [hoe]
    have hstart : ((u32Mod - (u32Mod + 1) % u32Mod) % u32Mod + (u32Mod + 1) % u32Mod) % u32Mod
        = 0 := by
      rw [u32Mod_eq]
    rw [hstart]
    rw [if_neg (by rw [u32Mod_eq]; norm_num)]
    rw [if_neg (by rw [hclen]; omega)]
    rw [show max 1 (0 + (u32Mod + 1)) = u32Mod + 1 by omega, hdrop]
    rfl
  · -- second next(): guard passes, wrapped start offset 1 is emitted
    have hfd2 : findDelim (some c3Delim) [98] = 1 := by
      show fdGo c3Delim (98 :: []) true false = 1
      rw [fdGo_cons_break _ _ _ _ (by
        rw [List.length_singleton, c3Delim, List.length_replicate]
        have := u32Mod_pos
        omega)]
      rw [List.length_singleton]
    rw [dnext_eq_formula (l := [98]) rfl, hfd2, hdlen]
    have hstart2 : (((⟨some [98], 0, 0⟩ : DState).offEnd + (u32Mod + 1) % u32Mod) % u32Mod)
        = 1 := by
      show ((0 : Nat) + (u32Mod + 1) % u32Mod) % u32Mod = 1
      rw [u32Mod_eq]
    rw [hstart2]
    rw [if_neg (by rw [u32Mod_eq]; norm_num)]
    rw [if_pos (by rw [List.length_singleton])]
    rfl
  · -- byte 1 of the original input is `a`, not the reported payload `b`
    have hrep : List.replicate u32Mod 97 = 97 :: List.replicate (u32Mod - 1) 97 := by
      conv_lhs => rw [show u32Mod = (u32Mod - 1) + 1 by rw [u32Mod_eq]]
      rw [List.replicate_succ]
    rw [hcons, List.drop_one, List.tail_cons, hrep, List.cons_append]
    intro hcontra
    have h97 : (97 :: (List.replicate (u32Mod - 1) 97 ++ [98])).take 1 = [97] := rfl
    rw [h97] at hcontra
    exact absurd hcontra (by simp)

/-- Claim C3 witness: concrete run with delimiter `","` and input `"a,b"`
applying the amended offset-correctness theorem to the first token. -/
theorem c3_witness :
    (⟨0, 1, [97], [97]⟩ : DToken).offStart + (⟨0, 1, [97], [97]⟩ : DToken).payload.length
      = (⟨0, 1, [97], [97]⟩ : DToken).offEnd ∧
    (⟨0, 1, [97], [97]⟩ : DToken).payload =
      (([97, 44, 98].drop (⟨0, 1, [97], [97]⟩ : DToken).offStart).take
        (⟨0, 1, [97], [97]⟩ : DToken).payload.length) :=
  have h := c3_offsets_correct_below_u32 (some [44]) [97, 44, 98] _ ⟨some [98], 0, 1⟩
    ⟨0, 1, [97], [97]⟩ (by decide) DReach.init (by decide)
  ⟨h.1, h.2.2.2⟩

lemma joinSep_single (sep t : List Nat) : joinSep sep [t] = t := rfl

lemma joinSep_cons₂ (sep a b : List Nat) (ts : List (List Nat)) :
    joinSep sep (a :: b :: ts) = a ++ sep ++ joinSep sep (b :: ts) := rfl

lemma dtokens_data_none {delim : Option (List Nat)} {k : Nat} {s : DState}
    (h : s.data = none) : dtokens delim k s = [] := by
  cases k with
  | zero => rfl
  | succ k => simp only [dtokens, dnext, h]

/-- A token whose bytes contain no quote is returned verbatim by
`eval_term`. -/
lemma evalTerm_no_quote {l : List Nat} (h : ∀ x ∈ l, x ≠ quoteByte) :
    evalTerm l = l := by
  cases l with
  | nil => rfl
  | cons x rest =>
    simp only [evalTerm]
    rw [if_neg (by simp), if_pos ?_]
    rw [List.headD_cons]
    exact h x (List.mem_cons_self x rest)

/-- Join auxiliary for claim C5: from any invariant state holding a
quote-free suffix `l`, the terms emitted by the remaining `next()` calls,
re-joined with the (non-empty) delimiter, reproduce `l` exactly. -/
lemma c5_aux (dl : List Nat) (input : List Nat) (hdl : dl ≠ [])
    (hq : ∀ x ∈ input, x ≠ quoteByte) (hlen : input.length < u32Mod) :
    ∀ (k : Nat) (s : DState) (l : List Nat), dposInv (some dl) input s →
      s.data = some l → l.length < k →
      joinSep dl ((dtokens (some dl) k s).map DToken.term) = l := by
  intro k
  induction k with
  | zero => intro s l _ _ h; omega
  | succ k ih =>
    intro s l hinv hl hlt
    obtain ⟨t, s', heq, _, _, _, htt, hsd, _, hinv'⟩ := dnext_char hlen hinv hl
    obtain ⟨p, hp, hsuf, _⟩ := hinv l hl
    have hmem : ∀ x ∈ l, x ≠ quoteByte := by
      intro x hx
      exact hq x (List.mem_of_mem_drop (hsuf ▸ hx))
    have hterm : t.term = l.take (findDelim (some dl) l) := by
      rw [htt]
      exact evalTerm_no_quote (fun x hx => hmem x (List.mem_of_mem_take hx))
    simp only [dtokens, heq, List.map_cons]
    by_cases hc : l.length ≤ findDelim (some dl) l
    · have hsz : findDelim (some dl) l = l.length := le_antisymm (findDelim_le _ _) hc
      have hnone : s'.data = none := by rw [hsd, if_pos hc]
      rw [dtokens_data_none hnone]
      simp only [List.map_nil]
      rw [joinSep_single, hterm, hsz, List.take_length]
    · have hfdlt : findDelim (some dl) l < l.length := Nat.lt_of_not_le hc
      have hm := fdGo_match dl l true false hfdlt
      have hdlpos : 0 < dl.length := List.length_pos.mpr hdl
      have hmax : max 1 (findDelim (some dl) l + dlenOf (some dl)) =
          findDelim (some dl) l + dl.length := by
        simp only [dlenOf]
        omega
      have hsome : s'.data = some (l.drop (findDelim (some dl) l + dl.length)) := by
        rw [hsd, if_neg hc, hmax]
      obtain ⟨r, hr⟩ := List.isPrefixOf_iff_prefix.mp hm.1
      have hr2 : dl ++ r = l.drop (findDelim (some dl) l) := hr
      have hrval : r = l.drop (findDelim (some dl) l + dl.length) := by
        have hcut := congrArg (List.drop dl.length) hr
        rw [List.drop_left, List.drop_drop] at hcut
        exact hcut
      have hlensum : dl.length + findDelim (some dl) l ≤ l.length := hm.2.1
      have hrec := ih s' (l.drop (findDelim (some dl) l + dl.length)) hinv' hsome (by
        rw [List.length_drop]
        omega)
      obtain ⟨t2, s2, heq2, _⟩ := dnext_char hlen hinv' hsome
      cases k with
      | zero =>
        exact absurd hsome (by
          intro hcl
          have := congrArg (Option.map List.length) hcl
          omega)
      | succ k2 =>
        have htl : dtokens (some dl) (k2 + 1) s' = t2 :: dtokens (some dl) k2 s2 := by
          simp only [dtokens, heq2]
        rw [htl] at hrec ⊢
        rw [List.map_cons] at hrec
        rw [List.map_cons, joinSep_cons₂, hrec, hterm, ← hrval]
        conv_rhs => rw [← List.take_append_drop (findDelim (some dl) l) l, ← hr2]
        simp [List.append_assoc]

/-- Claim C5 (amended): for a non-empty delimiter and a quote-free input
shorter than `2 ^ 32` bytes, re-joining all emitted terms with the
delimiter reproduces the original input byte-for-byte. -/
theorem c5_join_reproduces_input (dl input : List Nat) (hdl : dl ≠ [])
    (hq : ∀ x ∈ input, x ≠ quoteByte) (hlen : input.length < u32Mod) :
    joinSep dl
      ((dtokens (some dl) (input.length + 1) (dreset (some dl) input).1).map DToken.term)
      = input :=
  c5_aux dl input hdl hq hlen (input.length + 1) _ input (dreset_inv _ _) rfl
    (by omega)

/-- Claim C5 witness: delimiter `","`, input `"a,b"`. -/
theorem c5_witness :
    joinSep [44]
      ((dtokens (some [44]) 4 (dreset (some [44]) [97, 44, 98]).1).map DToken.term)
      = [97, 44, 98] :=
  c5_join_reproduces_input [44] [97, 44, 98] (by decide) (by decide) (by decide)

/-- The scan of a comma delimiter over a run of `a` bytes finds no match
and returns the full length. -/
lemma fdGo_comma_rep97 : ∀ (n : Nat) (aS : Bool),
    fdGo [44] (List.replicate n 97) aS false = n := by
  intro n
  induction n with
  | zero => intro aS; rfl
  | succ n ih =>
    intro aS
    rw [List.replicate_succ, fdGo_cons_unquoted]
    rw [if_neg (by simp)]
    rw [if_neg (by simp [List.isPrefixOf])]
    rw [if_neg (by simp [quoteByte])]
    rw [ih]
    omega

/-- Exhausted streams produce no tokens for any fuel. -/
lemma dtokens_dnext_none {delim : Option (List Nat)} {k : Nat} {s : DState}
    (h : dnext delim s = none) : dtokens delim k s = [] := by
  cases k with
  | zero => rfl
  | succ k => simp only [dtokens, h]

/-- Claim C5 (counterexample): with the non-empty delimiter `","` and a
quote-free input of `2 ^ 32` bytes, the very first `next()` fails on the
32-bit offset guard, so no token at all is emitted and the re-joined terms
(the empty concatenation) do not reproduce the original input. -/
theorem c5_counterexample :
    dnext (some [44]) (dreset (some [44]) c5Input).1 = none ∧
    dtokens (some [44]) (u32Mod + 1) (dreset (some [44]) c5Input).1 = [] ∧
    joinSep [44]
      ((dtokens (some [44]) (u32Mod + 1) (dreset (some [44]) c5Input).1).map DToken.term)
      ≠ c5Input := by
  have hfd : findDelim (some [44]) c5Input = u32Mod := by
    show fdGo [44] c5Input true false = u32Mod
    rw [c5Input, fdGo_comma_rep97]
  have h1 : dnext (some [44]) (dreset (some [44]) c5Input).1 = none := by
    rw [dnext_eq_formula (l := c5Input) rfl, hfd]
    rw [if_pos ?_]
    have hoe : (dreset (some [44]) c5Input).1.offEnd = u32Mod - 1 := by
      show (u32Mod - (1 : Nat) % u32Mod) % u32Mod = u32Mod - 1
      rw [u32Mod_eq]
    rw [hoe]
    have : (u32Mod - 1 + dlenOf (some [44]) % u32Mod) % u32Mod = 0 := by
      show (u32Mod - 1 + 1 % u32Mod) % u32Mod = 0
      rw [u32Mod_eq]
    rw [this]
    have := u32Mod_pos
    omega
  have h2 : dtokens (some [44]) (u32Mod + 1) (dreset (some [44]) c5Input).1 = [] :=
    dtokens_dnext_none h1
  refine ⟨h1, h2, ?_⟩
  rw [h2]
  simp only [List.map_nil]
  rw [show joinSep [44] ([] : List (List Nat)) = [] from rfl]
  intro hcontra
  have hlen0 := congrArg List.length hcontra
  rw [c5Input, List.length_replicate, List.length_nil] at hlen0
  have := u32Mod_pos
  omega

lemma lookupC_append {c : TTCache} {k : List Nat} {e : CacheEntry}
    (h : lookupC c k = some e) (p : List Nat × CacheEntry) :
    lookupC (c ++ [p]) k = some e := by
  induction c with
  | nil => cases h
  | cons q rest ih =>
    obtain ⟨k', e'⟩ := q
    by_cases hk : k' = k
    · simp only [lookupC, if_pos hk] at h
      simp only [List.cons_append, lookupC, if_pos hk, h]
    · simp only [lookupC, if_neg hk] at h
      simp only [List.cons_append, lookupC, if_neg hk]
      exact ih h

lemma lookupC_append_self {c : TTCache} {k : List Nat}
    (h : lookupC c k = none) (e : CacheEntry) :
    lookupC (c ++ [(k, e)]) k = some e := by
  induction c with
  | nil => simp [lookupC]
  | cons q rest ih =>
    obtain ⟨k', e'⟩ := q
    by_cases hk : k' = k
    · simp only [lookupC, if_pos hk] at h
      exact Option.noConfusion h
    · simp only [lookupC, if_neg hk] at h
      simp only [List.cons_append, lookupC, if_neg hk]
      exact ih h

/-- A present cache binding survives any single operation. -/
lemma lookupC_runOp_mono {c : TTCache} {k : List Nat} {e : CacheEntry}
    (h : lookupC c k = some e) (op : CacheOp) :
    lookupC (runOp c op) k = some e := by
  cases op with
  | withOpts k' o sw =>
    simp only [runOp, construct1]
    cases hl : lookupC c k' with
    | some e' => exact h
    | none => exact lookupC_append h _
  | byKey gs k' =>
    simp only [runOp, construct2]
    cases hl : lookupC c k' with
    | some e' => exact h
    | none =>
      cases hb : build_stopwords gs { defaultOptions with locale := k' } [] with
      | none => exact h
      | some p =>
        simp only [construct1, hl]
        exact lookupC_append h _

lemma insertAll_of_disjoint :
    ∀ {l : List (List Nat)} {acc : List (List Nat)}, l.Nodup →
      (∀ x ∈ l, x ∉ acc) → insertAll acc l = acc ++ l := by
  intro l
  induction l with
  | nil => intro acc _ _; simp [insertAll]
  | cons x xs ih =>
    intro acc hnd hdis
    have hx : x ∉ acc := hdis x (List.mem_cons_self x xs)
    have hstep : insertAll acc (x :: xs) = insertAll (acc ++ [x]) xs := by
      simp only [insertAll, List.foldl_cons, insertSW, if_neg hx]
    rw [hstep, ih (List.nodup_cons.mp hnd).2]
    · simp
    · intro y hy
      simp only [List.mem_append, List.mem_singleton]
      rintro (hya | rfl)
      · exact hdis y (List.mem_cons_of_mem x hy) hya
      · exact (List.nodup_cons.mp hnd).1 hy

lemma insertAll_nil_of_nodup {l : List (List Nat)} (h : l.Nodup) :
    insertAll [] l = l := by
  rw [insertAll_of_disjoint h (by simp)]
  rfl

lemma pathCond_of_head_nul {p : List Nat} (h : p.head? = some 0) :
    pathCond p = false := by
  cases p with
  | nil => cases h
  | cons x rest =>
    rw [List.head?_cons] at h
    obtain rfl : x = 0 := (Option.some.inj h)
    rfl

lemma stem_match_eq (r : Option (List Nat)) (u : List Nat) :
    (match r with
     | some v => some v
     | none => some u) = some (r.getD u) := by
  cases r <;> rfl

/-- The code's `process_term` agrees with the specification-side pipeline
(fixed order normalize → case-convert → accent-strip → stopword filter →
stem with fallback to the unstemmed transformed value). -/
lemma process_term_eq_spec (env : TTEnv) (cc : CaseConvertT)
    (sw : List (List Nat)) (d : List Nat) :
    process_term env cc sw d = process_term_spec env cc sw d := by
  unfold process_term process_term_spec transform_spec
  cases hn : env.normalize d <;> cases cc <;> cases ht : env.translit <;>
    simp only [id] <;>
    split_ifs <;>
    first
      | rfl
      | (cases hst : env.stemmer with
         | none => rfl
         | some st => exact stem_match_eq _ _)

/-- A term is discarded exactly when its full transformation is in the
resolved stopword set. -/
lemma process_term_none_iff (env : TTEnv) (cc : CaseConvertT)
    (sw : List (List Nat)) (d : List Nat) :
    process_term env cc sw d = none ↔ transform_spec env cc d ∈ sw := by
  rw [process_term_eq_spec]
  unfold process_term_spec
  by_cases hm : transform_spec env cc d ∈ sw
  · simp [hm]
  · simp [hm]

/-- Claim C1: with a non-empty explicit stopword set and no supplied
`stopwordsPath` override (the leading-NUL "unset" sentinel), building the
stopword set touches the filesystem oracle not at all (the flag of the
result is false), resolves to exactly the explicit set, and the token
stream then filters exactly the tokens whose full transformation lies in
that set. -/
theorem c1_explicit_stopwords_authoritative
    (gs : Option (List Nat) → Option (List (List Nat))) (env : TTEnv)
    (cc : CaseConvertT) (opts : TTOptions)
    (hne : opts.explicit_stopwords ≠ [])
    (hpath : opts.stopwordsPath.head? = some 0)
    (hnd : opts.explicit_stopwords.Nodup) :
    build_stopwords gs opts [] = some (opts.explicit_stopwords, false) ∧
    (∀ d, process_term env cc opts.explicit_stopwords d = none ↔
      transform_spec env cc d ∈ opts.explicit_stopwords) := by
  constructor
  · unfold build_stopwords
    rw [if_neg hne, insertAll_nil_of_nodup hnd]
    rw [if_neg (by rw [pathCond_of_head_nul hpath]; exact Bool.false_ne_true)]
    rw [if_neg (by
      rintro ⟨-, hemp⟩
      exact hne hemp)]
  · intro d
    exact process_term_none_iff env cc opts.explicit_stopwords d

/-- Claim C1 witness: explicit stopword list `["hi"]`, unset path. -/
theorem c1_witness :
    build_stopwords (fun _ => none)
      { defaultOptions with explicit_stopwords := [[104, 105]] } []
      = some ([[104, 105]], false) ∧
    (process_term idEnv .cnone [[104, 105]] [104, 105] = none ↔
      transform_spec idEnv .cnone [104, 105] ∈ [[104, 105]]) :=
  have h := c1_explicit_stopwords_authoritative (fun _ => none) idEnv .cnone
    { defaultOptions with explicit_stopwords := [[104, 105]] }
    (by decide) (by decide) (by decide)
  ⟨h.1, h.2 [104, 105]⟩

/-- Claim C7: every term emitted by `next()` of the linguistic analyzer
comes from the first non-skipped boundary span, through the fixed
pipeline normalize → case-convert → accent-strip → stopword filter →
stem.  The transformed string of the emitting span is not a stopword,
and a stemming failure yields the transformed-but-unstemmed value, never
the raw original bytes; per-term, the code's `process_term` coincides
with the specification-side pipeline. -/
theorem c7_transform_pipeline (env : TTEnv) (cc : CaseConvertT)
    (sw : List (List Nat)) (segs rest : List TTSeg) (t : List Nat)
    (h : tt_next env cc sw segs = some (t, rest)) :
    (∀ d, process_term env cc sw d = process_term_spec env cc sw d) ∧
    ∃ pre seg, segs = pre ++ seg :: rest ∧ seg.wordNone = false ∧
      process_term_spec env cc sw seg.text = some t ∧
      transform_spec env cc seg.text ∉ sw ∧
      (∀ st, env.stemmer = some st → st (transform_spec env cc seg.text) = none →
        t = transform_spec env cc seg.text) := by
  refine ⟨fun d => process_term_eq_spec env cc sw d, ?_⟩
  induction segs with
  | nil => cases h
  | cons seg segs ih =>
    simp only [tt_next] at h
    by_cases hw : seg.wordNone = true
    · rw [if_pos hw] at h
      obtain ⟨pre, sg, h1, h2, h3, h4, h5⟩ := ih h
      exact ⟨seg :: pre, sg, by rw [h1, List.cons_append], h2, h3, h4, h5⟩
    · rw [if_neg hw] at h
      cases hp : process_term env cc sw seg.text with
      | none =>
        rw [hp] at h
        obtain ⟨pre, sg, h1, h2, h3, h4, h5⟩ := ih h
        exact ⟨seg :: pre, sg, by rw [h1, List.cons_append], h2, h3, h4, h5⟩
      | some t' =>
        rw [hp] at h
        injection h with h'
        injection h' with ht hrest
        have hspec : process_term_spec env cc sw seg.text = some t := by
          rw [← process_term_eq_spec, ← ht]
          exact hp
        have hmem : transform_spec env cc seg.text ∉ sw := by
          intro hm
          rw [process_term_spec, if_pos hm] at hspec
          exact Option.noConfusion hspec
        refine ⟨[], seg, by rw [List.nil_append, hrest],
          Bool.not_eq_true seg.wordNone ▸ hw, hspec, hmem, ?_⟩
        intro st hst hfail
        simp only [process_term_spec, if_neg hmem, hst, hfail, Option.getD_none] at hspec
        exact (Option.some.inj hspec).symm

/-- Claim C7 witness: a single word span through the identity
environment. -/
theorem c7_witness :
    (process_term idEnv .cnone [] [97] = process_term_spec idEnv .cnone [] [97]) ∧
    ([⟨[97], false⟩] : List TTSeg) = [] ++ ⟨[97], false⟩ :: ([] : List TTSeg) :=
  have h := c7_transform_pipeline idEnv .cnone [] [⟨[97], false⟩] [] [97] rfl
  ⟨h.1 [97], by rw [List.nil_append]⟩

/-- A present cache binding survives any whole operation sequence. -/
lemma lookupC_runOps_mono :
    ∀ (ops : List CacheOp) (c : TTCache) (k : List Nat) (e : CacheEntry),
      lookupC c k = some e → lookupC (runOps c ops) k = some e
  | [], _, _, _, h => h
  | op :: rest, c, k, e, h =>
    lookupC_runOps_mono rest (runOp c op) k e (lookupC_runOp_mono h op)

/-- Claim C8: write-once semantics of the process-wide analyzer cache.
For any key: when the key is absent, the first successful build inserts
the compiled entry and leaves it retrievable; when the key is present,
any later build with that key — whether with options in hand or by key —
returns the existing entry and leaves the cache unchanged; and an
inserted entry survives every subsequent sequence of cache operations
unchanged. -/
theorem c8_cache_write_once (c : TTCache) (k : List Nat) :
    (lookupC c k = none → ∀ o sw,
      construct1 c k o sw = (⟨k, o, sw⟩, c ++ [(k, ⟨k, o, sw⟩)]) ∧
      lookupC (construct1 c k o sw).2 k = some ⟨k, o, sw⟩) ∧
    (∀ e, lookupC c k = some e → ∀ o sw gs,
      construct1 c k o sw = (e, c) ∧ construct2 gs c k = some (e, c)) ∧
    (∀ e, lookupC c k = some e → ∀ ops, lookupC (runOps c ops) k = some e) := by
  refine ⟨?_, ?_, ?_⟩
  · intro h o sw
    refine ⟨by simp only [construct1, h], ?_⟩
    simp only [construct1, h]
    exact lookupC_append_self h _
  · intro e h o sw gs
    exact ⟨by simp only [construct1, h], by simp only [construct2, h]⟩
  · intro e h ops
    exact lookupC_runOps_mono ops c k e h

/-- Claim C8 witness: inserting under key `"k"` into the empty cache and
surviving one later operation with the same key. -/
theorem c8_witness :
    construct1 [] [107] defaultOptions [] =
      (⟨[107], defaultOptions, []⟩, [([107], ⟨[107], defaultOptions, []⟩)]) ∧
    lookupC (runOps [([107], ⟨[107], defaultOptions, []⟩)]
        [CacheOp.withOpts [107] defaultOptions [[104]]]) [107] =
      some ⟨[107], defaultOptions, []⟩ :=
  ⟨((c8_cache_write_once [] [107]).1 rfl defaultOptions []).1,
   (c8_cache_write_once [([107], ⟨[107], defaultOptions, []⟩)] [107]).2.2
     ⟨[107], defaultOptions, []⟩ rfl [CacheOp.withOpts [107] defaultOptions [[104]]]⟩

lemma strList_map_jstr : ∀ l : List (List Nat), strList (l.map JVal.jstr) = some l := by
  intro l
  induction l with
  | nil => rfl
  | cons x xs ih => simp [strList, asStr, ih]

lemma ccOfName_ccName (cc : CaseConvertT) : ccOfName (ccName cc) = some cc := by
  cases cc <;> rfl

lemma make_json_opts_config (o : TTOptions) (hnd : o.explicit_stopwords.Nodup) :
    make_json_opts (make_json_config_ast o) = some (reparsedOptions o) := by
  by_cases hsw : o.explicit_stopwords ≠ [] ∨ o.explicit_stopwords_set = true <;>
    by_cases hpc : pathCond o.stopwordsPath = true
  · rw [show make_json_config_ast o = .jobj
        [(localeKey, .jstr o.locale), (caseConvertKey, .jstr (ccName o.case_convert)),
         (stopwordsKey, .jarr (o.explicit_stopwords.map JVal.jstr)),
         (noAccentKey, .jbool o.no_accent), (noStemKey, .jbool o.no_stem),
         (stopwordsPathKey, .jstr o.stopwordsPath)] from by
      simp only [make_json_config_ast, if_pos hsw, if_pos hpc]
      rfl]
    simp [make_json_opts, jlookup, localeKey, caseConvertKey, stopwordsKey,
      stopwordsPathKey, noAccentKey, noStemKey, asStr, asBool, strList_map_jstr,
      ccOfName_ccName, insertAll_nil_of_nodup hnd, reparsedOptions,
      decide_eq_true hsw, if_pos hpc, Option.bind]
  · rw [show make_json_config_ast o = .jobj
        [(localeKey, .jstr o.locale), (caseConvertKey, .jstr (ccName o.case_convert)),
         (stopwordsKey, .jarr (o.explicit_stopwords.map JVal.jstr)),
         (noAccentKey, .jbool o.no_accent), (noStemKey, .jbool o.no_stem)] from by
      simp only [make_json_config_ast, if_pos hsw, if_neg hpc]
      rfl]
    simp [make_json_opts, jlookup, localeKey, caseConvertKey, stopwordsKey,
      stopwordsPathKey, noAccentKey, noStemKey, asStr, asBool, strList_map_jstr,
      ccOfName_ccName, insertAll_nil_of_nodup hnd, reparsedOptions,
      decide_eq_true hsw, if_neg hpc, Option.bind, defaultOptions]
  · rw [show make_json_config_ast o = .jobj
        [(localeKey, .jstr o.locale), (caseConvertKey, .jstr (ccName o.case_convert)),
         (noAccentKey, .jbool o.no_accent), (noStemKey, .jbool o.no_stem),
         (stopwordsPathKey, .jstr o.stopwordsPath)] from by
      simp only [make_json_config_ast, if_neg hsw, if_pos hpc]
      rfl]
    have hswl : o.explicit_stopwords = [] := by
      by_contra hne
      exact hsw (Or.inl hne)
    have hset : o.explicit_stopwords_set = false := by
      rcases Bool.eq_false_or_eq_true o.explicit_stopwords_set with hb | hb
      · exact absurd (Or.inr hb) hsw
      · exact hb
    simp [make_json_opts, jlookup, localeKey, caseConvertKey, stopwordsKey,
      stopwordsPathKey, noAccentKey, noStemKey, asStr, asBool,
      reparsedOptions, hswl, hset, if_pos hpc, Option.bind,
      defaultOptions]
    rw [ccOfName_ccName]
  · rw [show make_json_config_ast o = .jobj
        [(localeKey, .jstr o.locale), (caseConvertKey, .jstr (ccName o.case_convert)),
         (noAccentKey, .jbool o.no_accent), (noStemKey, .jbool o.no_stem)] from by
      simp only [make_json_config_ast, if_neg hsw, if_neg hpc]
      rfl]
    have hswl : o.explicit_stopwords = [] := by
      by_contra hne
      exact hsw (Or.inl hne)
    have hset : o.explicit_stopwords_set = false := by
      rcases Bool.eq_false_or_eq_true o.explicit_stopwords_set with hb | hb
      · exact absurd (Or.inr hb) hsw
      · exact hb
    simp [make_json_opts, jlookup, localeKey, caseConvertKey, stopwordsKey,
      stopwordsPathKey, noAccentKey, noStemKey, asStr, asBool,
      reparsedOptions, hswl, hset, if_neg hpc, Option.bind,
      defaultOptions]
    rw [ccOfName_ccName]

lemma make_json_config_ast_reparsed (o : TTOptions) :
    make_json_config_ast (reparsedOptions o) = make_json_config_ast o := by
  by_cases hsw : o.explicit_stopwords ≠ [] ∨ o.explicit_stopwords_set = true <;>
    by_cases hpc : pathCond o.stopwordsPath = true
  · simp only [make_json_config_ast, reparsedOptions]
    rw [if_pos hpc, if_pos (Or.inr (decide_eq_true hsw)), if_pos hsw]
  · simp only [make_json_config_ast, reparsedOptions]
    rw [if_neg hpc, if_pos (Or.inr (decide_eq_true hsw)), if_pos hsw]
    rw [show pathCond [0] = false from rfl]
    rw [if_neg (by exact Bool.false_ne_true), if_neg hpc]
  · have hswl : o.explicit_stopwords = [] := by
      by_contra hne
      exact hsw (Or.inl hne)
    have hset : o.explicit_stopwords_set = false := by
      rcases Bool.eq_false_or_eq_true o.explicit_stopwords_set with hb | hb
      · exact absurd (Or.inr hb) hsw
      · exact hb
    simp only [make_json_config_ast, reparsedOptions]
    rw [if_pos hpc, if_neg hsw, if_neg (by
      rw [decide_eq_false hsw]
      rintro (hne | hff)
      · exact hsw (Or.inl hne)
      · exact Bool.false_ne_true hff)]
  · have hswl : o.explicit_stopwords = [] := by
      by_contra hne
      exact hsw (Or.inl hne)
    have hset : o.explicit_stopwords_set = false := by
      rcases Bool.eq_false_or_eq_true o.explicit_stopwords_set with hb | hb
      · exact absurd (Or.inr hb) hsw
      · exact hb
    simp only [make_json_config_ast, reparsedOptions]
    rw [if_neg hpc, if_neg hsw, if_neg (by
      rw [decide_eq_false hsw]
      rintro (hne | hff)
      · exact hsw (Or.inl hne)
      · exact Bool.false_ne_true hff)]
    rw [show pathCond [0] = false from rfl]
    rw [if_neg (by exact Bool.false_ne_true), if_neg hpc]

/-- Claim C4: serializing a valid configuration in the structured format,
constructing a new analyzer from that output and serializing it again
yields byte-identical output.  (Validity asks only that the stopword set
really is a set, i.e. has no duplicate in its iteration order.) -/
theorem c4_structured_roundtrip (o : TTOptions) (hnd : o.explicit_stopwords.Nodup) :
    ∃ o2, make_json_opts (make_json_config_ast o) = some o2 ∧
      writeJson (make_json_config_ast o2) = writeJson (make_json_config_ast o) :=
  ⟨reparsedOptions o, make_json_opts_config o hnd,
   congrArg writeJson (make_json_config_ast_reparsed o)⟩

/-- Claim C4 witness: the configuration with an explicitly empty
stopwords array round-trips. -/
theorem c4_witness :
    ∃ o2, make_json_opts (make_json_config_ast
        { defaultOptions with explicit_stopwords_set := true }) = some o2 ∧
      writeJson (make_json_config_ast o2) =
        writeJson (make_json_config_ast
          { defaultOptions with explicit_stopwords_set := true }) :=
  c4_structured_roundtrip { defaultOptions with explicit_stopwords_set := true }
    (by decide)
